import Mathlib

/-!
Verification of the WebRag ingestion pipeline and vector retrieval engine.

The definitions below are a shallow embedding of the Python sources:
  - `chunk_text` embeds `URLIngestionWorker.chunk_text` (src/ingestion_worker.py);
    the `while` loop is embedded with a fuel parameter (`chunkLoop`), with fuel
    `text.length + 1`, which is shown sufficient whenever the overlap is
    smaller than the chunk size.
  - `VectorStore`, `add_embeddings`, `search` embed src/vector_store.py; the
    embedding model is a parameter (an external collaborator), embedding
    vectors are integer vectors and the FAISS `IndexFlatL2` is modelled by its
    contract: exact squared-L2 nearest-neighbour search returning the `k`
    closest stored vectors sorted by non-decreasing distance.  FAISS pads
    missing result slots (when `k > ntotal`) with index `-1`, which the
    `idx in self.id_map` check in `search` always filters out, so the model
    returns only the `min k ntotal` real hits.
  - `process_url` embeds `URLIngestionWorker.process_url`; the database session
    is explicit state, commits become state updates, and timestamps are
    abstracted to a set/unset flag.
  - `query_rag` embeds the `/query` handler of src/app.py past request parsing.
-/

namespace WebRag

/-! ### Chunker (src/ingestion_worker.py, chunk_text) -/

/-- The `while start < len(text)` loop of `chunk_text`, with explicit fuel.
Each iteration takes `text[start : start + L]` and advances
`start := (start + L) - O` (Python: `end = start + CHUNK_SIZE; start = end -
CHUNK_OVERLAP`). -/
def chunkLoop (text : List Char) (L O : Nat) : Nat → Nat → List (List Char)
  | 0, _ => []
  | fuel + 1, start =>
    if start < text.length then
      ((text.drop start).take L) :: chunkLoop text L O fuel (start + L - O)
    else []

/-- `chunk_text`: run the loop from `start = 0`, then truncate to the first
`M` chunks (`chunks[:MAX_CHUNKS_PER_URL]`).  Fuel `text.length + 1` is enough
whenever `O < L` (shown in `chunkLoop_congr` below). -/
def chunk_text (text : List Char) (L O M : Nat) : List (List Char) :=
  (chunkLoop text L O (text.length + 1) 0).take M

/-- With overlap smaller than the chunk size, the loop result only depends on
the fuel being larger than the remaining text length. -/
theorem chunkLoop_congr (text : List Char) (L O : Nat) (hLO : O < L) :
    ∀ fuel₁ fuel₂ start, text.length - start < fuel₁ → text.length - start < fuel₂ →
      chunkLoop text L O fuel₁ start = chunkLoop text L O fuel₂ start := by
  intro fuel₁
  induction fuel₁ with
  | zero => intro fuel₂ start h₁ _; exact absurd h₁ (Nat.not_lt_zero _)
  | succ f ih =>
    intro fuel₂ start h₁ h₂
    cases fuel₂ with
    | zero => exact absurd h₂ (Nat.not_lt_zero _)
    | succ g =>
      simp only [chunkLoop]
      by_cases hs : start < text.length
      · simp only [hs, if_true]
        have hrec : text.length - (start + L - O) < f := by omega
        have hrec2 : text.length - (start + L - O) < g := by omega
        rw [ih g (start + L - O) hrec hrec2]
      · simp only [hs, if_false]

/-- Element-wise description of the loop output: the chunk at index `i`
starts at offset `start + i * (L - O)` and is present exactly when that
offset is inside the text. -/
theorem chunkLoop_getElem? (text : List Char) (L O : Nat) (hLO : O < L) :
    ∀ fuel start i, text.length - start < fuel →
      (chunkLoop text L O fuel start)[i]? =
        if start + i * (L - O) < text.length then
          some ((text.drop (start + i * (L - O))).take L)
        else none := by
  intro fuel
  induction fuel with
  | zero => intro start i h; exact absurd h (Nat.not_lt_zero _)
  | succ f ih =>
    intro start i h
    simp only [chunkLoop]
    by_cases hs : start < text.length
    · simp only [hs, if_true]
      cases i with
      | zero =>
        simp only [List.getElem?_cons_zero, Nat.zero_mul, Nat.add_zero, hs, if_true]
      | succ j =>
        simp only [List.getElem?_cons_succ]
        have hrec : text.length - (start + L - O) < f := by omega
        rw [ih (start + L - O) j hrec]
        have harith : start + L - O + j * (L - O) = start + (j + 1) * (L - O) := by
          have hm : (j + 1) * (L - O) = j * (L - O) + (L - O) := by ring
          omega
        rw [harith]
    · simp only [hs, if_false, List.getElem?_nil]
      have hge : text.length ≤ start + i * (L - O) := by
        have : text.length ≤ start := Nat.le_of_not_lt hs
        omega
      rw [if_neg (Nat.not_lt.mpr hge)]

theorem getElem?_take_ite (l : List α) (n i : Nat) :
    (l.take n)[i]? = if i < n then l[i]? else none := by
  induction l generalizing n i with
  | nil => simp
  | cons a t ih =>
    cases n with
    | zero => simp
    | succ m =>
      cases i with
      | zero => simp
      | succ j => simpa using ih m j

/-- `chunkLoop` is `[]` as soon as the start offset has reached the end of
the text, whatever the fuel. -/
theorem chunkLoop_eq_nil_of_le (text : List Char) (L O fuel start : Nat)
    (h : text.length ≤ start) : chunkLoop text L O fuel start = [] := by
  cases fuel with
  | zero => rfl
  | succ f => simp [chunkLoop, Nat.not_lt.mpr h]

theorem chunkLoop_ne_nil_of_lt (text : List Char) (L O fuel start : Nat)
    (hf : 0 < fuel) (h : start < text.length) : chunkLoop text L O fuel start ≠ [] := by
  cases fuel with
  | zero => exact absurd hf (Nat.lt_irrefl 0)
  | succ f => simp [chunkLoop, h]

/-- Reassembly of a chunk list: the first `stride` characters of every chunk
but the last, then the last chunk in full. -/
def reconstruct (stride : Nat) : List (List Char) → List Char
  | [] => []
  | [c] => c
  | c :: c2 :: cs => c.take stride ++ reconstruct stride (c2 :: cs)

theorem reconstruct_cons_of_ne_nil (stride : Nat) (c : List Char)
    (cs : List (List Char)) (h : cs ≠ []) :
    reconstruct stride (c :: cs) = c.take stride ++ reconstruct stride cs := by
  cases cs with
  | nil => exact absurd rfl h
  | cons c2 t => rfl

/-- Reassembling the loop output from offset `start` recovers the text from
offset `start` on. -/
theorem chunkLoop_reconstruct (text : List Char) (L O : Nat) (hLO : O < L) :
    ∀ fuel start, text.length - start < fuel →
      reconstruct (L - O) (chunkLoop text L O fuel start) = text.drop start := by
  intro fuel
  induction fuel with
  | zero => intro start h; exact absurd h (Nat.not_lt_zero _)
  | succ f ih =>
    intro start h
    by_cases hs : start < text.length
    · simp only [chunkLoop, hs, if_true]
      by_cases hnext : start + L - O < text.length
      · have hne : chunkLoop text L O f (start + L - O) ≠ [] :=
          chunkLoop_ne_nil_of_lt text L O f (start + L - O) (by omega) hnext
        rw [reconstruct_cons_of_ne_nil _ _ _ hne, ih (start + L - O) (by omega)]
        have hd : start + L - O = start + (L - O) := by omega
        rw [hd]
        have htt : ((text.drop start).take L).take (L - O) = (text.drop start).take (L - O) := by
          rw [List.take_take, Nat.min_eq_left (Nat.sub_le L O)]
        rw [htt]
        have hdd : text.drop (start + (L - O)) = (text.drop start).drop (L - O) := by
          rw [List.drop_drop]
        rw [hdd, List.take_append_drop]
      · have hnil : chunkLoop text L O f (start + L - O) = [] :=
          chunkLoop_eq_nil_of_le text L O f (start + L - O) (Nat.le_of_not_lt hnext)
        rw [hnil]
        show (text.drop start).take L = text.drop start
        have hlen : (text.drop start).length ≤ L := by
          rw [List.length_drop]
          omega
        exact List.take_of_length_le hlen
    · rw [chunkLoop_eq_nil_of_le text L O _ start (Nat.le_of_not_lt hs)]
      rw [List.drop_eq_nil_of_le (Nat.le_of_not_lt hs)]
      rfl

/-- Claim C1: for `O < L`, `chunk_text` returns exactly the chunks starting at
offsets `i * (L - O)`, each covering `L` characters clipped to the end of the
text, one chunk per start offset below the text length but at most `M`
chunks; the empty text yields the empty sequence. -/
theorem chunk_text_spec (text : List Char) (L O M i : Nat) (hLO : O < L) :
    (chunk_text text L O M)[i]? =
      (if i < M ∧ i * (L - O) < text.length then
        some ((text.drop (i * (L - O))).take L)
      else none)
    ∧ (chunk_text text L O M).length ≤ M
    ∧ chunk_text [] L O M = [] := by
  refine ⟨?_, ?_, ?_⟩
  · rw [chunk_text, getElem?_take_ite,
      chunkLoop_getElem? text L O hLO (text.length + 1) 0 i (by omega)]
    simp only [Nat.zero_add]
    by_cases hM : i < M
    · by_cases hin : i * (L - O) < text.length
      · simp [hM, hin]
      · simp [hM, hin]
    · simp [hM]
  · rw [chunk_text, List.length_take]
    exact Nat.min_le_left _ _
  · simp [chunk_text, chunkLoop]

theorem chunk_text_spec_witness :
    (1 : Nat) < 4 ∧
      ((chunk_text ("abcdefgh".toList) 4 1 3)[1]? =
        (if 1 < 3 ∧ 1 * (4 - 1) < ("abcdefgh".toList).length then
          some ((("abcdefgh".toList).drop (1 * (4 - 1))).take 4)
        else none)
      ∧ (chunk_text ("abcdefgh".toList) 4 1 3).length ≤ 3
      ∧ chunk_text [] 4 1 3 = []) :=
  ⟨by decide, chunk_text_spec ("abcdefgh".toList) 4 1 3 1 (by decide)⟩

/-- Claim C5: when `O < L` and no max-chunk truncation occurred (fewer than
`M` chunks were produced), concatenating the first `L - O` characters of each
chunk except the last, then the last chunk in full, reconstructs the text. -/
theorem chunk_text_reconstruct (text : List Char) (L O M : Nat) (hLO : O < L)
    (hM : (chunk_text text L O M).length < M) :
    reconstruct (L - O) (chunk_text text L O M) = text := by
  have hfull : chunk_text text L O M = chunkLoop text L O (text.length + 1) 0 := by
    rw [chunk_text]
    apply List.take_of_length_le
    rw [chunk_text, List.length_take] at hM
    omega
  rw [hfull]
  have := chunkLoop_reconstruct text L O hLO (text.length + 1) 0 (by omega)
  simpa using this

theorem chunk_text_reconstruct_witness :
    ((1 : Nat) < 4 ∧ (chunk_text ("abcdefgh".toList) 4 1 5).length < 5) ∧
      reconstruct (4 - 1) (chunk_text ("abcdefgh".toList) 4 1 5) = "abcdefgh".toList :=
  ⟨⟨by decide, by decide⟩,
    chunk_text_reconstruct ("abcdefgh".toList) 4 1 5 (by decide) (by decide)⟩

/-- Claim C6: with `O < L` the chunking loop terminates: the start offset
strictly increases by `L - O ≥ 1` each iteration, so fuel `text.length + 1`
already yields the fixed point — adding any extra fuel does not change the
output, and `chunk_text` is a finite sequence of at most `M` chunks. -/
theorem chunk_text_terminates (text : List Char) (L O M extra : Nat) (hLO : O < L) :
    chunkLoop text L O (text.length + 1 + extra) 0 = chunkLoop text L O (text.length + 1) 0
    ∧ (chunk_text text L O M).length ≤ M :=
  ⟨chunkLoop_congr text L O hLO _ _ 0 (by omega) (by omega),
    by rw [chunk_text, List.length_take]; exact Nat.min_le_left _ _⟩

theorem chunk_text_terminates_witness :
    (1 : Nat) < 4 ∧
      (chunkLoop ("abcdefgh".toList) 4 1 (("abcdefgh".toList).length + 1 + 7) 0 =
        chunkLoop ("abcdefgh".toList) 4 1 (("abcdefgh".toList).length + 1) 0
      ∧ (chunk_text ("abcdefgh".toList) 4 1 3).length ≤ 3) :=
  ⟨by decide, chunk_text_terminates ("abcdefgh".toList) 4 1 3 7 (by decide)⟩

/-! ### Vector store (src/vector_store.py) -/

/-- An embedding vector.  The external embedding model is modelled over the
integers; the claims under verification are structural (counts, ordering,
key membership) and do not depend on the numeric carrier. -/
abbrev EmbVec := List Int

/-- The external embedding provider (`SentenceTransformer.encode` on a single
text); a failure raises and propagates out of `add_embeddings` / `search`. -/
abbrev Encoder := List Char → Except (List Char) EmbVec

/-- An embedding provider that never fails, embedding through `f`. -/
def okEncode (f : List Char → EmbVec) : Encoder := fun t => Except.ok (f t)

/-- `self.embedding_model.encode(texts)`: order-preserving batch encoding,
propagating any failure. -/
def encodeAll (encode : Encoder) : List (List Char) → Except (List Char) (List EmbVec)
  | [] => Except.ok []
  | t :: ts =>
    match encode t, encodeAll encode ts with
    | Except.error e, _ => Except.error e
    | Except.ok _, Except.error e => Except.error e
    | Except.ok v, Except.ok vs => Except.ok (v :: vs)

/-- The FAISS index (`self.index`, positions are list indices and
`ntotal = vectors.length`) together with the side table `self.id_map`
(a Python dict, modelled as an insertion-ordered association list with
distinct keys). -/
structure VectorStore where
  vectors : List EmbVec
  id_map : List (Nat × Nat)
  deriving DecidableEq

/-- `_create_new_index`: an empty index and an empty id map. -/
def emptyStore : VectorStore := ⟨[], []⟩

/-- Python dict assignment `m[k] = v`: overwrite the entry if the key is
present, otherwise append it. -/
def dictInsert (m : List (Nat × Nat)) (k v : Nat) : List (Nat × Nat) :=
  if m.any (fun p => p.1 == k) then
    m.map (fun p => if p.1 == k then (k, v) else p)
  else m ++ [(k, v)]

/-- Python dict lookup `m[k]` guarded by `k in m`. -/
def dictFind (m : List (Nat × Nat)) (k : Nat) : Option Nat :=
  (m.find? (fun p => p.1 == k)).map (fun p => p.2)

/-- `add_embeddings`: encode the batch, assign the next sequential FAISS
positions `list(range(ntotal, ntotal + len(embeddings)))`, append the vectors,
record `id_map[faiss_id] = chunk_id` over `zip(faiss_ids, chunk_ids)`, and
return the assigned positions.  (`save_index` is disk persistence with no
further effect on this state.) -/
def add_embeddings (encode : Encoder) (vs : VectorStore) (texts : List (List Char))
    (chunk_ids : List Nat) : Except (List Char) (VectorStore × List Nat) :=
  match encodeAll encode texts with
  | Except.error e => Except.error e
  | Except.ok embeddings =>
    let faiss_ids := List.range' vs.vectors.length embeddings.length
    Except.ok
      (⟨vs.vectors ++ embeddings,
        (faiss_ids.zip chunk_ids).foldl (fun m p => dictInsert m p.1 p.2) vs.id_map⟩,
       faiss_ids)

/-- Squared L2 distance between two embedding vectors. -/
def sqDist (q v : EmbVec) : Int :=
  ((q.zip v).map (fun p => (p.1 - p.2) * (p.1 - p.2))).sum

def insertSorted (x : Nat × Int) : List (Nat × Int) → List (Nat × Int)
  | [] => [x]
  | y :: ys => if x.2 ≤ y.2 then x :: y :: ys else y :: insertSorted x ys

def sortByDist (l : List (Nat × Int)) : List (Nat × Int) :=
  l.foldr insertSorted []

/-- The FAISS `IndexFlatL2.search` contract: the `k` stored positions closest
to `q` (squared L2), with their distances, sorted by non-decreasing distance.
When `k > ntotal`, FAISS pads the remaining slots with index `-1`; the
`idx in self.id_map` check in `search` always drops those, so the model keeps
only the `min k ntotal` real hits. -/
def knn (vectors : List EmbVec) (q : EmbVec) (k : Nat) : List (Nat × Int) :=
  (sortByDist (vectors.enum.map (fun p => (p.1, sqDist q p.2)))).take k

/-- `search`: encode the query, retrieve the `k` nearest positions, and keep
`(id_map[idx], distance)` for every position present in the id map. -/
def search (encode : Encoder) (vs : VectorStore) (query : List Char) (k : Nat) :
    Except (List Char) (List (Nat × Int)) :=
  match encode query with
  | Except.error e => Except.error e
  | Except.ok q =>
    Except.ok ((knn vs.vectors q k).filterMap
      (fun p => (dictFind vs.id_map p.1).map (fun cid => (cid, p.2))))

/-- The index-consistency invariant: vector count equals id-map size and every
stored position lies in `[0, count)`. -/
def goodState (vs : VectorStore) : Prop :=
  vs.vectors.length = vs.id_map.length ∧ ∀ p ∈ vs.id_map, p.1 < vs.vectors.length

instance (vs : VectorStore) : Decidable (goodState vs) :=
  inferInstanceAs (Decidable (_ ∧ _))

/-- A finite sequence of `add` calls (the embedding provider never failing),
starting from a given store. -/
def applyAdds (f : List Char → EmbVec) (batches : List (List (List Char) × List Nat))
    (vs : VectorStore) : VectorStore :=
  batches.foldl (fun s b =>
    match add_embeddings (okEncode f) s b.1 b.2 with
    | Except.ok r => r.1
    | Except.error _ => s) vs

theorem encodeAll_okEncode (f : List Char → EmbVec) (ts : List (List Char)) :
    encodeAll (okEncode f) ts = Except.ok (ts.map f) := by
  induction ts with
  | nil => rfl
  | cons t ts ih => simp [encodeAll, okEncode, ih]

theorem dictInsert_fresh (m : List (Nat × Nat)) (k v : Nat)
    (h : ∀ p ∈ m, p.1 ≠ k) : dictInsert m k v = m ++ [(k, v)] := by
  rw [dictInsert, if_neg]
  intro hc
  rw [List.any_eq_true] at hc
  obtain ⟨p, hp, hpk⟩ := hc
  exact h p hp (by simpa using hpk)

theorem foldl_dictInsert_fresh (len : Nat) :
    ∀ (n : Nat) (ids : List Nat) (m : List (Nat × Nat)), (∀ p ∈ m, p.1 < n) →
      ((List.range' n len).zip ids).foldl (fun m p => dictInsert m p.1 p.2) m =
        m ++ (List.range' n len).zip ids := by
  induction len with
  | zero => intro n ids m _; simp
  | succ l ih =>
    intro n ids m hm
    rw [List.range'_succ]
    cases ids with
    | nil => simp
    | cons i is =>
      simp only [List.zip_cons_cons, List.foldl_cons]
      rw [dictInsert_fresh m n i (fun p hp => Nat.ne_of_lt (hm p hp))]
      rw [ih (n + 1) is (m ++ [(n, i)]) ?fresh]
      · simp
      case fresh =>
        intro p hp
        rcases List.mem_append.mp hp with h1 | h1
        · exact Nat.lt_succ_of_lt (hm p h1)
        · simp only [List.mem_singleton] at h1
          subst h1
          exact Nat.lt_succ_self n

/-- Under a consistent store and equal-length arguments, `add_embeddings`
appends the encoded vectors, extends the id map by exactly the fresh
sequential positions, and returns those positions. -/
theorem add_embeddings_ok (f : List Char → EmbVec) (vs : VectorStore)
    (texts : List (List Char)) (chunk_ids : List Nat)
    (hgood : ∀ p ∈ vs.id_map, p.1 < vs.vectors.length) :
    add_embeddings (okEncode f) vs texts chunk_ids =
      Except.ok
        (⟨vs.vectors ++ texts.map f,
          vs.id_map ++ (List.range' vs.vectors.length texts.length).zip chunk_ids⟩,
         List.range' vs.vectors.length texts.length) := by
  rw [add_embeddings, encodeAll_okEncode]
  simp only [List.length_map]
  rw [foldl_dictInsert_fresh texts.length vs.vectors.length chunk_ids vs.id_map hgood]

theorem goodState_emptyStore : goodState emptyStore := by
  constructor <;> simp [emptyStore]

theorem goodState_add (f : List Char → EmbVec) (vs : VectorStore)
    (texts : List (List Char)) (chunk_ids : List Nat)
    (hgood : goodState vs) (hlen : texts.length = chunk_ids.length) :
    ∀ r, add_embeddings (okEncode f) vs texts chunk_ids = Except.ok r → goodState r.1 := by
  intro r hr
  rw [add_embeddings_ok f vs texts chunk_ids hgood.2] at hr
  obtain ⟨hvec, hmap⟩ := hgood
  injection hr with hr
  subst hr
  constructor
  · simp only [List.length_append, List.length_map, List.length_zip, List.length_range']
    omega
  · intro p hp
    simp only [List.length_append, List.length_map]
    rcases List.mem_append.mp hp with h1 | h1
    · exact Nat.lt_of_lt_of_le (hmap p h1) (Nat.le_add_right _ _)
    · have := List.of_mem_zip h1
      have hmem := List.mem_range'_1.mp this.1
      omega

theorem goodState_applyAdds (f : List Char → EmbVec)
    (batches : List (List (List Char) × List Nat))
    (hb : ∀ b ∈ batches, b.1.length = b.2.length) :
    ∀ vs, goodState vs → goodState (applyAdds f batches vs) := by
  induction batches with
  | nil => intro vs h; exact h
  | cons b bs ih =>
    intro vs h
    rw [applyAdds, List.foldl_cons]
    have hb1 : b.1.length = b.2.length := hb b (List.mem_cons_self b bs)
    have hok := add_embeddings_ok f vs b.1 b.2 h.2
    rw [hok]
    exact ih (fun x hx => hb x (List.mem_cons_of_mem b hx)) _
      (goodState_add f vs b.1 b.2 h hb1 _ hok)

/-- Claim C2: after any finite sequence of `add` calls with equal-length
arguments the store is consistent (count = map size, keys in `[0, count)`),
and each call assigns the positions `count, count+1, ...` sequentially from
the count before the call, returns exactly them in order, and extends the id
map without touching or renumbering existing entries. -/
theorem add_embeddings_invariant (f : List Char → EmbVec)
    (batches : List (List (List Char) × List Nat))
    (vs : VectorStore) (texts : List (List Char)) (chunk_ids : List Nat)
    (hb : ∀ b ∈ batches, b.1.length = b.2.length)
    (hgood : goodState vs) (_hlen : texts.length = chunk_ids.length) :
    goodState (applyAdds f batches emptyStore)
    ∧ add_embeddings (okEncode f) vs texts chunk_ids =
        Except.ok
          (⟨vs.vectors ++ texts.map f,
            vs.id_map ++ (List.range' vs.vectors.length texts.length).zip chunk_ids⟩,
           List.range' vs.vectors.length texts.length) :=
  ⟨goodState_applyAdds f batches hb emptyStore goodState_emptyStore,
   add_embeddings_ok f vs texts chunk_ids hgood.2⟩

theorem add_embeddings_invariant_witness :
    ((∀ b ∈ [([['a'], ['b', 'c']], [5, 9])], b.1.length = b.2.length)
      ∧ goodState ⟨[[0]], [(0, 3)]⟩ ∧ ([['d']].length = [7].length))
    ∧ (goodState (applyAdds (fun t => [(t.length : Int)])
          [([['a'], ['b', 'c']], [5, 9])] emptyStore)
      ∧ add_embeddings (okEncode (fun t => [(t.length : Int)])) ⟨[[0]], [(0, 3)]⟩ [['d']] [7] =
          Except.ok
            (⟨[[0]] ++ [['d']].map (fun t => [(t.length : Int)]),
              [(0, 3)] ++ (List.range' ([[(0 : Int)]] : List EmbVec).length [['d']].length).zip [7]⟩,
             List.range' ([[(0 : Int)]] : List EmbVec).length [['d']].length)) :=
  ⟨⟨by decide, by decide, by decide⟩,
   add_embeddings_invariant (fun t => [(t.length : Int)]) [([['a'], ['b', 'c']], [5, 9])]
     ⟨[[0]], [(0, 3)]⟩ [['d']] [7] (by decide) (by decide) (by decide)⟩

theorem mem_insertSorted (x b : Nat × Int) (l : List (Nat × Int)) :
    b ∈ insertSorted x l ↔ b = x ∨ b ∈ l := by
  induction l with
  | nil => simp [insertSorted]
  | cons y ys ih =>
    rw [insertSorted]
    by_cases hxy : x.2 ≤ y.2
    · rw [if_pos hxy]
      simp only [List.mem_cons]
    · rw [if_neg hxy]
      simp only [List.mem_cons, ih]
      tauto

theorem pairwise_insertSorted (x : Nat × Int) (l : List (Nat × Int))
    (h : l.Pairwise (fun a b => a.2 ≤ b.2)) :
    (insertSorted x l).Pairwise (fun a b => a.2 ≤ b.2) := by
  induction l with
  | nil => simp [insertSorted]
  | cons y ys ih =>
    rw [List.pairwise_cons] at h
    by_cases hxy : x.2 ≤ y.2
    · rw [insertSorted, if_pos hxy]
      refine List.Pairwise.cons ?_ (List.Pairwise.cons h.1 h.2)
      intro b hb
      rcases List.mem_cons.mp hb with rfl | hb2
      · exact hxy
      · exact le_trans hxy (h.1 b hb2)
    · rw [insertSorted, if_neg hxy]
      refine List.Pairwise.cons ?_ (ih h.2)
      intro b hb
      rcases (mem_insertSorted x b ys).mp hb with rfl | hb2
      · omega
      · exact h.1 b hb2

theorem pairwise_sortByDist (l : List (Nat × Int)) :
    (sortByDist l).Pairwise (fun a b => a.2 ≤ b.2) := by
  induction l with
  | nil => simp [sortByDist]
  | cons y ys ih => exact pairwise_insertSorted y _ ih

theorem length_insertSorted (x : Nat × Int) (l : List (Nat × Int)) :
    (insertSorted x l).length = l.length + 1 := by
  induction l with
  | nil => rfl
  | cons y ys ih =>
    rw [insertSorted]
    by_cases hxy : x.2 ≤ y.2
    · rw [if_pos hxy]; rfl
    · rw [if_neg hxy]
      simp [ih]

theorem length_sortByDist (l : List (Nat × Int)) :
    (sortByDist l).length = l.length := by
  induction l with
  | nil => rfl
  | cons y ys ih =>
    show (insertSorted y (sortByDist ys)).length = ys.length + 1
    rw [length_insertSorted, ih]

theorem pairwise_filterMap_snd (g : Nat × Int → Option Nat) (l : List (Nat × Int))
    (h : l.Pairwise (fun a b => a.2 ≤ b.2)) :
    (l.filterMap (fun p => (g p).map (fun cid => (cid, p.2)))).Pairwise
      (fun a b => a.2 ≤ b.2) := by
  induction l with
  | nil => simp
  | cons y ys ih =>
    rw [List.pairwise_cons] at h
    rw [List.filterMap_cons]
    cases hg : g y with
    | none => simpa using ih h.2
    | some cid =>
      simp only [Option.map_some']
      refine List.Pairwise.cons ?_ (ih h.2)
      intro b hb
      rw [List.mem_filterMap] at hb
      obtain ⟨p, hp, hpb⟩ := hb
      cases hgp : g p with
      | none => rw [hgp] at hpb; exact absurd hpb (by simp)
      | some c2 =>
        rw [hgp] at hpb
        simp only [Option.map_some', Option.some.injEq] at hpb
        rw [← hpb]
        exact h.1 p hp

theorem length_filterMap_eq_filter (g : Nat × Int → Option Nat) (l : List (Nat × Int)) :
    (l.filterMap (fun p => (g p).map (fun cid => (cid, p.2)))).length =
      (l.filter (fun p => (g p).isSome)).length := by
  induction l with
  | nil => rfl
  | cons y ys ih =>
    rw [List.filterMap_cons, List.filter_cons]
    cases hg : g y with
    | none => simpa [hg] using ih
    | some cid => simpa [hg] using ih

theorem dictFind_mem (m : List (Nat × Nat)) (k c : Nat) :
    dictFind m k = some c → ∃ e ∈ m, e.2 = c := by
  rw [dictFind]
  cases hf : m.find? (fun p => p.1 == k) with
  | none => intro h; exact absurd h (by simp)
  | some e =>
    intro h
    simp only [Option.map_some', Option.some.injEq] at h
    exact ⟨e, List.mem_of_find?_eq_some hf, h⟩

/-- Claim C3: for every index state, query and `k ≥ 1`, `search` returns
pairs sorted by non-decreasing distance, at most `min k count` of them, each
chunk id taken from the identifier map; searched positions absent from the
map are omitted (exactly the mapped positions among the `k` nearest survive),
and an empty index yields the empty result. -/
theorem search_spec (f : List Char → EmbVec) (vs : VectorStore) (query : List Char)
    (k : Nat) (res : List (Nat × Int)) (_hk : 1 ≤ k)
    (hres : search (okEncode f) vs query k = Except.ok res) :
    res.Pairwise (fun a b => a.2 ≤ b.2)
    ∧ res.length ≤ min k vs.vectors.length
    ∧ (∀ r ∈ res, ∃ e ∈ vs.id_map, e.2 = r.1)
    ∧ res.length = ((knn vs.vectors (f query) k).filter
        (fun p => (dictFind vs.id_map p.1).isSome)).length
    ∧ (vs.vectors = [] → res = []) := by
  have hres2 : res = (knn vs.vectors (f query) k).filterMap
      (fun p => (dictFind vs.id_map p.1).map (fun cid => (cid, p.2))) := by
    rw [search] at hres
    simp only [okEncode] at hres
    injection hres with h
    exact h.symm
  have hsorted : (knn vs.vectors (f query) k).Pairwise (fun a b => a.2 ≤ b.2) := by
    rw [knn]
    exact (pairwise_sortByDist _).sublist (List.take_sublist _ _)
  refine ⟨?_, ?_, ?_, ?_, ?_⟩
  · rw [hres2]
    exact pairwise_filterMap_snd _ _ hsorted
  · rw [hres2, length_filterMap_eq_filter]
    calc ((knn vs.vectors (f query) k).filter
          (fun p => (dictFind vs.id_map p.1).isSome)).length
        ≤ (knn vs.vectors (f query) k).length := List.length_filter_le _ _
      _ ≤ min k vs.vectors.length := by
          rw [knn, List.length_take, length_sortByDist, List.length_map, List.enum_length]
  · intro r hr
    rw [hres2, List.mem_filterMap] at hr
    obtain ⟨p, _, hpr⟩ := hr
    cases hd : dictFind vs.id_map p.1 with
    | none => rw [hd] at hpr; exact absurd hpr (by simp)
    | some c =>
      rw [hd] at hpr
      simp only [Option.map_some', Option.some.injEq] at hpr
      obtain ⟨e, he, hec⟩ := dictFind_mem vs.id_map p.1 c hd
      exact ⟨e, he, by rw [← hpr]; exact hec⟩
  · rw [hres2, length_filterMap_eq_filter]
  · intro hv
    rw [hres2, hv]
    simp [knn, sortByDist]

theorem search_spec_witness :
    ((1 : Nat) ≤ 2 ∧
      search (okEncode (fun t => [(t.length : Int)]))
        ⟨[[3], [1]], [(0, 10), (1, 20)]⟩ ['a', 'b'] 2 = Except.ok [(10, 1), (20, 1)])
    ∧ (List.Pairwise (fun a b => a.2 ≤ b.2) ([(10, 1), (20, 1)] : List (Nat × Int))
      ∧ ([(10, 1), (20, 1)] : List (Nat × Int)).length ≤
          min 2 (VectorStore.mk [[3], [1]] [(0, 10), (1, 20)]).vectors.length
      ∧ (∀ r ∈ ([(10, 1), (20, 1)] : List (Nat × Int)),
          ∃ e ∈ (VectorStore.mk [[3], [1]] [(0, 10), (1, 20)]).id_map, e.2 = r.1)
      ∧ ([(10, 1), (20, 1)] : List (Nat × Int)).length =
          ((knn (VectorStore.mk [[3], [1]] [(0, 10), (1, 20)]).vectors
              ((fun t => [(t.length : Int)]) ['a', 'b']) 2).filter
            (fun p => (dictFind (VectorStore.mk [[3], [1]] [(0, 10), (1, 20)]).id_map
              p.1).isSome)).length
      ∧ ((VectorStore.mk [[3], [1]] [(0, 10), (1, 20)]).vectors = [] →
          ([(10, 1), (20, 1)] : List (Nat × Int)) = [])) :=
  ⟨⟨by decide, rfl⟩,
   search_spec (fun t => [(t.length : Int)]) ⟨[[3], [1]], [(0, 10), (1, 20)]⟩
     ['a', 'b'] 2 [(10, 1), (20, 1)] (by decide) rfl⟩

/-- Claim C9: `add_embeddings` performs no length check: with two texts and a
single chunk id it appends two vectors, returns two positions, but records
only one id-map entry, so the count-equality invariant breaks. -/
theorem add_embeddings_no_length_check :
    add_embeddings (okEncode (fun t => [(t.length : Int)])) emptyStore
        [['a', 'b'], ['c', 'd', 'e']] [7] =
      Except.ok (⟨[[2], [3]], [(0, 7)]⟩, [0, 1])
    ∧ ([[2], [3]] : List EmbVec).length = 2
    ∧ ([(0, 7)] : List (Nat × Nat)).length = 1
    ∧ ¬ goodState ⟨[[2], [3]], [(0, 7)]⟩ := by
  refine ⟨rfl, rfl, rfl, ?_⟩
  intro h
  exact absurd h.1 (by decide)

/-! ### Metadata store and ingestion worker (src/models.py, src/ingestion_worker.py) -/

inductive IngestionStatus
  | pending
  | processing
  | completed
  | failed
  deriving DecidableEq

/-- A `url_metadata` row.  Timestamps are abstracted: `completed_at` only
records whether the completion time has been set. -/
structure URLRecord where
  id : Nat
  url : List Char
  title : Option (List Char)
  status : IngestionStatus
  content_length : Nat
  chunk_count : Nat
  error_message : Option (List Char)
  completed_at : Bool
  deriving DecidableEq

/-- A `chunk_metadata` row. -/
structure ChunkRecord where
  id : Nat
  url_id : Nat
  chunk_index : Nat
  content : List Char
  faiss_id : Option Nat
  deriving DecidableEq

/-- The metadata database: both tables plus the autoincrement counter that
`db.flush()` draws chunk ids from. -/
structure DB where
  urls : List URLRecord
  chunks : List ChunkRecord
  next_chunk_id : Nat
  deriving DecidableEq

/-- The state a job runs against: the metadata store and the vector index. -/
structure SysState where
  db : DB
  vs : VectorStore
  deriving DecidableEq

/-- `db.query(URLMetadata).filter(URLMetadata.url == url).first()`. -/
def findUrl (db : DB) (url : List Char) : Option URLRecord :=
  db.urls.find? (fun r => r.url == url)

/-- Mutating the ORM object for the record with id `uid` and committing. -/
def updateUrl (db : DB) (uid : Nat) (upd : URLRecord → URLRecord) : DB :=
  { db with urls := db.urls.map (fun r => if r.id == uid then upd r else r) }

/-- The chunk records owned by URL id `uid`. -/
def chunksOf (db : DB) (uid : Nat) : List ChunkRecord :=
  db.chunks.filter (fun c => c.url_id == uid)

/-- Deleting all existing chunk records for a URL (the idempotent-retry purge
at the start of `process_url`). -/
def deleteChunks (db : DB) (uid : Nat) : DB :=
  { db with chunks := db.chunks.filter (fun c => !(c.url_id == uid)) }

/-- The chunk-record creation loop: each `db.add` + `db.flush` stores a record
(`faiss_id` null) under the next autoincrement id, with consecutive
`chunk_index` values. -/
def mkChunkRecords (uid : Nat) : Nat → Nat → List (List Char) → List ChunkRecord
  | _, _, [] => []
  | nextId, idx, c :: cs =>
    ⟨nextId, uid, idx, c, none⟩ :: mkChunkRecords uid (nextId + 1) (idx + 1) cs

/-- One step of the FAISS-id update loop: a record whose id is paired in
`assign` receives that faiss id, others are untouched. -/
def applyAssign (assign : List (Nat × Nat)) (c : ChunkRecord) : ChunkRecord :=
  match assign.find? (fun p => p.1 == c.id) with
  | some p => { c with faiss_id := some p.2 }
  | none => c

/-- The FAISS-id update loop: the records queried by `id.in_(chunk_ids)` come
back in id order (their creation order), so each created record is assigned
the faiss id paired with its own id in `zip(chunk_ids, faiss_ids)`. -/
def setFaissIds (chunks : List ChunkRecord) (assign : List (Nat × Nat)) : List ChunkRecord :=
  chunks.map (applyAssign assign)

/-- The `except` handler of `process_url`: set FAILED, record `str(e)`, and
commit (which also persists every pending mutation of this attempt). -/
def markFailed (db : DB) (uid : Nat) (e : List Char) : DB :=
  updateUrl db uid (fun r =>
    { r with status := IngestionStatus.failed, error_message := some e })

/-- `URLIngestionWorker.process_url`: look up the URL record (dropping the
job if absent), mark PROCESSING, purge the URL's chunk records, fetch and
clean (external collaborator `fetch`), record title and content length, chunk,
fail on zero chunks, create chunk records, add embeddings, assign faiss ids,
and mark COMPLETED; any failure lands in `markFailed` with the pending
mutations kept. -/
def process_url (encode : Encoder)
    (fetch : List Char → Except (List Char) (List Char × List Char))
    (L O M : Nat) (st : SysState) (url : List Char) : SysState :=
  match findUrl st.db url with
  | none => st
  | some rec =>
    let db1 := updateUrl st.db rec.id (fun r => { r with status := IngestionStatus.processing })
    let db2 := deleteChunks db1 rec.id
    match fetch url with
    | Except.error e => ⟨markFailed db2 rec.id e, st.vs⟩
    | Except.ok (title, content) =>
      let db3 := updateUrl db2 rec.id (fun r =>
        { r with title := some title, content_length := content.length })
      let chunks := chunk_text content L O M
      if chunks = [] then
        ⟨markFailed db3 rec.id ("No content chunks generated".toList), st.vs⟩
      else
        let newRecs := mkChunkRecords rec.id db3.next_chunk_id 0 chunks
        let chunk_ids := newRecs.map (fun c => c.id)
        let db4 := { db3 with
          chunks := db3.chunks ++ newRecs,
          next_chunk_id := db3.next_chunk_id + chunks.length }
        match add_embeddings encode st.vs chunks chunk_ids with
        | Except.error e => ⟨markFailed db4 rec.id e, st.vs⟩
        | Except.ok (vs2, faiss_ids) =>
          let db5 := { db4 with chunks := setFaissIds db4.chunks (chunk_ids.zip faiss_ids) }
          let db6 := updateUrl db5 rec.id (fun r =>
            { r with chunk_count := chunks.length,
                     status := IngestionStatus.completed,
                     completed_at := true })
          ⟨db6, vs2⟩

/-- The FAILED branch of the `/ingest-url` handler (src/app.py): reset the
record to PENDING and clear its error message before re-queueing the job. -/
def retryReset (db : DB) (url : List Char) : DB :=
  match findUrl db url with
  | none => db
  | some rec =>
    updateUrl db rec.id (fun r =>
      { r with status := IngestionStatus.pending, error_message := none })

/-- The record created by a first `/ingest-url` request:
`URLMetadata(url=url, status=PENDING)` with column defaults. -/
def freshRecord (uid : Nat) (url : List Char) : URLRecord :=
  ⟨uid, url, none, IngestionStatus.pending, 0, 0, none, false⟩

/-- The observable outcome of an ingestion for one URL: status, chunk count,
and the URL's chunk records projected to (sequence index, content). -/
def ingestView (st : SysState) (url : List Char) :
    Option (IngestionStatus × Nat × List (Nat × List Char)) :=
  match findUrl st.db url with
  | none => none
  | some r =>
    some (r.status, r.chunk_count,
      (chunksOf st.db r.id).map (fun c => (c.chunk_index, c.content)))

theorem applyAssign_url_id (a : List (Nat × Nat)) (c : ChunkRecord) :
    (applyAssign a c).url_id = c.url_id := by
  rw [applyAssign]
  cases a.find? (fun p => p.1 == c.id) <;> rfl

theorem applyAssign_proj (a : List (Nat × Nat)) (c : ChunkRecord) :
    (applyAssign a c).chunk_index = c.chunk_index ∧ (applyAssign a c).content = c.content := by
  rw [applyAssign]
  cases a.find? (fun p => p.1 == c.id) <;> exact ⟨rfl, rfl⟩

theorem setFaissIds_proj (a : List (Nat × Nat)) (l : List ChunkRecord) :
    (setFaissIds l a).map (fun c => (c.chunk_index, c.content)) =
      l.map (fun c => (c.chunk_index, c.content)) := by
  induction l with
  | nil => rfl
  | cons c t ih =>
    simp only [setFaissIds, List.map_cons] at ih ⊢
    rw [ih, (applyAssign_proj a c).1, (applyAssign_proj a c).2]

theorem filter_setFaissIds (a : List (Nat × Nat)) (uid : Nat) (l : List ChunkRecord) :
    (setFaissIds l a).filter (fun c => c.url_id == uid) =
      setFaissIds (l.filter (fun c => c.url_id == uid)) a := by
  induction l with
  | nil => rfl
  | cons c t ih =>
    simp only [setFaissIds, List.map_cons, List.filter_cons] at ih ⊢
    by_cases hc : c.url_id = uid
    · simp [applyAssign_url_id, hc, ih]
    · simp [applyAssign_url_id, hc, ih]

theorem mkChunkRecords_length (uid : Nat) :
    ∀ nextId idx cs, (mkChunkRecords uid nextId idx cs).length = cs.length := by
  intro nextId idx cs
  induction cs generalizing nextId idx with
  | nil => rfl
  | cons c t ih => simp [mkChunkRecords, ih]

theorem mkChunkRecords_proj (uid : Nat) :
    ∀ nextId idx cs,
      (mkChunkRecords uid nextId idx cs).map (fun c => (c.chunk_index, c.content)) =
        (List.range' idx cs.length).zip cs := by
  intro nextId idx cs
  induction cs generalizing nextId idx with
  | nil => rfl
  | cons c t ih =>
    rw [mkChunkRecords, List.map_cons, List.length_cons, List.range'_succ,
      List.zip_cons_cons, ih]

theorem filter_mkChunkRecords (uid : Nat) :
    ∀ nextId idx cs,
      (mkChunkRecords uid nextId idx cs).filter (fun c => c.url_id == uid) =
        mkChunkRecords uid nextId idx cs := by
  intro nextId idx cs
  induction cs generalizing nextId idx with
  | nil => rfl
  | cons c t ih => simp [mkChunkRecords, List.filter_cons, ih]

theorem filter_not_filter (uid : Nat) (l : List ChunkRecord) :
    (l.filter (fun c => !(c.url_id == uid))).filter (fun c => c.url_id == uid) = [] := by
  induction l with
  | nil => rfl
  | cons c t ih =>
    rw [List.filter_cons]
    by_cases hc : c.url_id = uid
    · simp [hc, ih]
    · simp [hc, ih]

theorem findUrl_singleton (rec : URLRecord) (chunks : List ChunkRecord) (n : Nat) :
    findUrl ⟨[rec], chunks, n⟩ rec.url = some rec := by
  simp [findUrl, List.find?]

/-- Unconditional output shape of `add_embeddings` with a never-failing
embedding provider (the id map in foldl form, no freshness assumption). -/
theorem add_embeddings_okEncode (f : List Char → EmbVec) (vs : VectorStore)
    (texts : List (List Char)) (chunk_ids : List Nat) :
    add_embeddings (okEncode f) vs texts chunk_ids =
      Except.ok
        (⟨vs.vectors ++ texts.map f,
          ((List.range' vs.vectors.length texts.length).zip chunk_ids).foldl
            (fun m p => dictInsert m p.1 p.2) vs.id_map⟩,
         List.range' vs.vectors.length texts.length) := by
  rw [add_embeddings, encodeAll_okEncode]
  simp only [List.length_map]

theorem add_embeddings_encode_fail (encode : Encoder) (vs : VectorStore)
    (texts : List (List Char)) (chunk_ids : List Nat) (e : List Char)
    (henc : encodeAll encode texts = Except.error e) :
    add_embeddings encode vs texts chunk_ids = Except.error e := by
  rw [add_embeddings, henc]

theorem findUrl_eq_of_urls (db : DB) (rec : URLRecord) (hurls : db.urls = [rec]) :
    findUrl db rec.url = some rec := by
  rw [findUrl, hurls]
  simp [List.find?]

/-- End state of `process_url` when the fetch (or cleaning) raises: the run
stops after the PROCESSING commit and the chunk purge, and the `except`
handler records FAILED with the error message. -/
theorem process_url_fetch_fail (encode : Encoder)
    (fetch : List Char → Except (List Char) (List Char × List Char)) (L O M : Nat)
    (db : DB) (vs : VectorStore) (rec : URLRecord) (e : List Char)
    (hurls : db.urls = [rec]) (hfetch : fetch rec.url = Except.error e) :
    process_url encode fetch L O M ⟨db, vs⟩ rec.url =
      ⟨⟨[{ rec with status := IngestionStatus.failed, error_message := some e }],
        db.chunks.filter (fun c => !(c.url_id == rec.id)), db.next_chunk_id⟩, vs⟩ := by
  have hf : findUrl db rec.url = some rec := findUrl_eq_of_urls db rec hurls
  simp only [process_url, hf, hfetch, markFailed, updateUrl, deleteChunks, hurls,
    List.map_cons, List.map_nil, beq_self_eq_true, if_true]

/-- End state of `process_url` when cleaning yields no chunks: the fetch
updates (title, content length) are still pending on the record, and the
`except` handler's commit persists them together with FAILED. -/
theorem process_url_no_chunks (encode : Encoder)
    (fetch : List Char → Except (List Char) (List Char × List Char)) (L O M : Nat)
    (db : DB) (vs : VectorStore) (rec : URLRecord) (title content : List Char)
    (hurls : db.urls = [rec]) (hfetch : fetch rec.url = Except.ok (title, content))
    (hch : chunk_text content L O M = []) :
    process_url encode fetch L O M ⟨db, vs⟩ rec.url =
      ⟨⟨[{ rec with
            title := some title, content_length := content.length,
            status := IngestionStatus.failed,
            error_message := some ("No content chunks generated".toList) }],
        db.chunks.filter (fun c => !(c.url_id == rec.id)), db.next_chunk_id⟩, vs⟩ := by
  have hf : findUrl db rec.url = some rec := findUrl_eq_of_urls db rec hurls
  simp only [process_url, hf, hfetch, hch, markFailed, updateUrl, deleteChunks, hurls,
    List.map_cons, List.map_nil, beq_self_eq_true, if_true]

/-- End state of `process_url` when the embedding provider raises inside
`add_embeddings`: the chunk records of this attempt are already pending and
the `except` handler's commit persists them (no rollback), together with the
fetch updates and FAILED; the vector store is untouched. -/
theorem process_url_embed_fail (encode : Encoder)
    (fetch : List Char → Except (List Char) (List Char × List Char)) (L O M : Nat)
    (db : DB) (vs : VectorStore) (rec : URLRecord) (title content e : List Char)
    (hurls : db.urls = [rec]) (hfetch : fetch rec.url = Except.ok (title, content))
    (hch : chunk_text content L O M ≠ [])
    (henc : encodeAll encode (chunk_text content L O M) = Except.error e) :
    process_url encode fetch L O M ⟨db, vs⟩ rec.url =
      ⟨⟨[{ rec with
            title := some title, content_length := content.length,
            status := IngestionStatus.failed, error_message := some e }],
        db.chunks.filter (fun c => !(c.url_id == rec.id)) ++
          mkChunkRecords rec.id db.next_chunk_id 0 (chunk_text content L O M),
        db.next_chunk_id + (chunk_text content L O M).length⟩, vs⟩ := by
  have hf : findUrl db rec.url = some rec := findUrl_eq_of_urls db rec hurls
  have hadd := add_embeddings_encode_fail encode vs (chunk_text content L O M)
    ((mkChunkRecords rec.id db.next_chunk_id 0 (chunk_text content L O M)).map
      (fun c => c.id)) e henc
  simp only [process_url, hf, hfetch, if_neg hch, hadd, markFailed, updateUrl,
    deleteChunks, hurls, List.map_cons, List.map_nil, beq_self_eq_true, if_true]

/-- End state of a fully successful `process_url` run with a never-failing
embedding provider. -/
theorem process_url_success (f : List Char → EmbVec)
    (fetch : List Char → Except (List Char) (List Char × List Char)) (L O M : Nat)
    (db : DB) (vs : VectorStore) (rec : URLRecord) (title content : List Char)
    (hurls : db.urls = [rec]) (hfetch : fetch rec.url = Except.ok (title, content))
    (hch : chunk_text content L O M ≠ []) :
    process_url (okEncode f) fetch L O M ⟨db, vs⟩ rec.url =
      ⟨⟨[{ rec with
            title := some title, content_length := content.length,
            chunk_count := (chunk_text content L O M).length,
            status := IngestionStatus.completed, completed_at := true }],
        setFaissIds
          (db.chunks.filter (fun c => !(c.url_id == rec.id)) ++
            mkChunkRecords rec.id db.next_chunk_id 0 (chunk_text content L O M))
          (((mkChunkRecords rec.id db.next_chunk_id 0 (chunk_text content L O M)).map
              (fun c => c.id)).zip
            (List.range' vs.vectors.length (chunk_text content L O M).length)),
        db.next_chunk_id + (chunk_text content L O M).length⟩,
       ⟨vs.vectors ++ (chunk_text content L O M).map f,
        ((List.range' vs.vectors.length (chunk_text content L O M).length).zip
            ((mkChunkRecords rec.id db.next_chunk_id 0 (chunk_text content L O M)).map
              (fun c => c.id))).foldl (fun m p => dictInsert m p.1 p.2) vs.id_map⟩⟩ := by
  have hf : findUrl db rec.url = some rec := findUrl_eq_of_urls db rec hurls
  have hadd := add_embeddings_okEncode f vs (chunk_text content L O M)
    ((mkChunkRecords rec.id db.next_chunk_id 0 (chunk_text content L O M)).map
      (fun c => c.id))
  simp only [process_url, hf, hfetch, if_neg hch, hadd, updateUrl, deleteChunks,
    hurls, List.map_cons, List.map_nil, beq_self_eq_true, if_true]

/-- Observable outcome of a successful run: COMPLETED, chunk count equal to
the number of chunks, and exactly one chunk record per chunk, indexed `0..`
in order with the chunk contents. -/
theorem process_url_success_view (f : List Char → EmbVec)
    (fetch : List Char → Except (List Char) (List Char × List Char)) (L O M : Nat)
    (db : DB) (vs : VectorStore) (rec : URLRecord) (title content : List Char)
    (hurls : db.urls = [rec]) (hfetch : fetch rec.url = Except.ok (title, content))
    (hch : chunk_text content L O M ≠ []) :
    ingestView (process_url (okEncode f) fetch L O M ⟨db, vs⟩ rec.url) rec.url =
      some (IngestionStatus.completed, (chunk_text content L O M).length,
        (List.range' 0 (chunk_text content L O M).length).zip (chunk_text content L O M)) := by
  rw [process_url_success f fetch L O M db vs rec title content hurls hfetch hch]
  simp only [ingestView, findUrl, List.find?, beq_self_eq_true, chunksOf]
  rw [filter_setFaissIds, List.filter_append, filter_not_filter, filter_mkChunkRecords,
    List.nil_append, setFaissIds_proj, mkChunkRecords_proj]

/-- Claim C4: re-ingesting a URL whose last attempt FAILED (after the
`/ingest-url` retry reset), with the same fetched content, yields exactly the
status, chunk count and chunk records of a fresh successful ingestion, and
the URL's chunk records are exactly the ones of this attempt (the prior
attempt's records are purged). -/
theorem retry_matches_fresh (f : List Char → EmbVec)
    (fetch : List Char → Except (List Char) (List Char × List Char)) (L O M : Nat)
    (db : DB) (vs : VectorStore) (rec : URLRecord) (title content : List Char)
    (uid0 n0 : Nat) (vs0 : VectorStore)
    (hurls : db.urls = [rec]) (_hfail : rec.status = IngestionStatus.failed)
    (hfetch : fetch rec.url = Except.ok (title, content))
    (hch : chunk_text content L O M ≠ []) :
    ingestView (process_url (okEncode f) fetch L O M ⟨retryReset db rec.url, vs⟩ rec.url)
        rec.url
      = ingestView (process_url (okEncode f) fetch L O M
          ⟨⟨[freshRecord uid0 rec.url], [], n0⟩, vs0⟩ rec.url) rec.url
    ∧ ingestView (process_url (okEncode f) fetch L O M ⟨retryReset db rec.url, vs⟩ rec.url)
        rec.url
      = some (IngestionStatus.completed, (chunk_text content L O M).length,
          (List.range' 0 (chunk_text content L O M).length).zip (chunk_text content L O M)) := by
  have hret : retryReset db rec.url =
      ⟨[{ rec with
          status := IngestionStatus.pending, error_message := none }],
        db.chunks, db.next_chunk_id⟩ := by
    simp only [retryReset, findUrl_eq_of_urls db rec hurls, updateUrl, hurls,
      List.map_cons, List.map_nil, beq_self_eq_true, if_true]
  have h1 := process_url_success_view f fetch L O M
    ⟨[{ rec with
        status := IngestionStatus.pending, error_message := none }],
      db.chunks, db.next_chunk_id⟩ vs
    ({ rec with
        status := IngestionStatus.pending, error_message := none })
    title content rfl hfetch hch
  have h2 := process_url_success_view f fetch L O M
    ⟨[freshRecord uid0 rec.url], [], n0⟩ vs0 (freshRecord uid0 rec.url)
    title content rfl hfetch hch
  rw [hret]
  exact ⟨h1.trans h2.symm, h1⟩

/-- Claim C7 (amended: the error message is recorded in full, untruncated):
any exception during fetch/cleaning (a failing fetch), chunking (zero
chunks), or embedding (a failing provider) transitions the record to FAILED
with `str(e)` stored verbatim in `error_message`; chunk records already
created in the attempt are kept, not rolled back. -/
theorem process_url_failure_transitions (encode : Encoder)
    (fetch : List Char → Except (List Char) (List Char × List Char)) (L O M : Nat)
    (db : DB) (vs : VectorStore) (rec : URLRecord) (title content e : List Char)
    (hurls : db.urls = [rec]) :
    (fetch rec.url = Except.error e →
      (findUrl (process_url encode fetch L O M ⟨db, vs⟩ rec.url).db rec.url).map
          (fun r => (r.status, r.error_message)) =
        some (IngestionStatus.failed, some e))
    ∧ (fetch rec.url = Except.ok (title, content) → chunk_text content L O M = [] →
        (findUrl (process_url encode fetch L O M ⟨db, vs⟩ rec.url).db rec.url).map
            (fun r => (r.status, r.error_message)) =
          some (IngestionStatus.failed, some ("No content chunks generated".toList)))
    ∧ (fetch rec.url = Except.ok (title, content) → chunk_text content L O M ≠ [] →
        encodeAll encode (chunk_text content L O M) = Except.error e →
        (findUrl (process_url encode fetch L O M ⟨db, vs⟩ rec.url).db rec.url).map
            (fun r => (r.status, r.error_message)) =
          some (IngestionStatus.failed, some e)
        ∧ (chunksOf (process_url encode fetch L O M ⟨db, vs⟩ rec.url).db rec.id).map
            (fun c => (c.chunk_index, c.content)) =
          (List.range' 0 (chunk_text content L O M).length).zip
            (chunk_text content L O M)) := by
  refine ⟨?_, ?_, ?_⟩
  · intro hfetch
    rw [process_url_fetch_fail encode fetch L O M db vs rec e hurls hfetch]
    simp [findUrl, List.find?]
  · intro hfetch hch
    rw [process_url_no_chunks encode fetch L O M db vs rec title content hurls hfetch hch]
    simp [findUrl, List.find?]
  · intro hfetch hch henc
    rw [process_url_embed_fail encode fetch L O M db vs rec title content e hurls
      hfetch hch henc]
    constructor
    · simp [findUrl, List.find?]
    · simp only [chunksOf, List.filter_append, filter_not_filter, filter_mkChunkRecords,
        List.nil_append, mkChunkRecords_proj]

/-- Claim C7 counterexample to "truncated": a fetch failure whose message is
600 characters long is recorded verbatim — the stored `error_message` is the
full message, not a truncation of it. -/
theorem error_message_recorded_in_full :
    (findUrl (process_url (okEncode (fun _ => [0]))
        (fun _ => Except.error (List.replicate 600 'x')) 3 1 10
        ⟨⟨[⟨1, ['u'], none, IngestionStatus.pending, 0, 0, none, false⟩], [], 0⟩,
          emptyStore⟩ ['u']).db ['u']).map (fun r => r.error_message) =
      some (some (List.replicate 600 'x'))
    ∧ (List.replicate 600 'x').length = 600 := by
  exact ⟨rfl, List.length_replicate 600 'x'⟩

/-- Claim C10: whenever a job fails after the fetch succeeded — the two such
failure modes are cleaning yielding zero chunks, and the embedding provider
raising inside the vector-index `add` — the commit performed by the FAILED
transition also persists the attempt's `title` and `content_length` updates:
the FAILED write set is not limited to status and error message. -/
theorem failed_commit_persists_fetch_updates (encode : Encoder)
    (fetch : List Char → Except (List Char) (List Char × List Char)) (L O M : Nat)
    (db : DB) (vs : VectorStore) (rec : URLRecord) (title content e : List Char)
    (hurls : db.urls = [rec]) (hfetch : fetch rec.url = Except.ok (title, content)) :
    (chunk_text content L O M = [] →
      (findUrl (process_url encode fetch L O M ⟨db, vs⟩ rec.url).db rec.url).map
          (fun r => (r.status, r.title, r.content_length)) =
        some (IngestionStatus.failed, some title, content.length))
    ∧ (chunk_text content L O M ≠ [] →
        encodeAll encode (chunk_text content L O M) = Except.error e →
        (findUrl (process_url encode fetch L O M ⟨db, vs⟩ rec.url).db rec.url).map
            (fun r => (r.status, r.title, r.content_length)) =
          some (IngestionStatus.failed, some title, content.length)) := by
  constructor
  · intro hch
    rw [process_url_no_chunks encode fetch L O M db vs rec title content hurls
      hfetch hch]
    simp [findUrl, List.find?]
  · intro hch henc
    rw [process_url_embed_fail encode fetch L O M db vs rec title content e hurls
      hfetch hch henc]
    simp [findUrl, List.find?]

/-- A concrete URL record of a failed prior attempt, for concrete instances. -/
def sampleRec : URLRecord := ⟨1, ['u'], none, IngestionStatus.failed, 7, 2, some ['b'], false⟩

/-- A concrete database holding `sampleRec` and one leftover chunk record
from the failed attempt. -/
def sampleDb : DB := ⟨[sampleRec], [⟨3, 1, 0, ['o'], some 0⟩], 4⟩

/-- A concrete non-empty vector store. -/
def sampleVs : VectorStore := ⟨[[5]], [(0, 3)]⟩

/-- A concrete fetch collaborator always returning title `t` and a 5-character
body. -/
def sampleFetch : List Char → Except (List Char) (List Char × List Char) :=
  fun _ => Except.ok (['t'], "abcde".toList)

/-- A concrete embedding function. -/
def sampleF : List Char → EmbVec := fun t => [(t.length : Int)]

theorem retry_matches_fresh_witness :
    (sampleDb.urls = [sampleRec]
      ∧ sampleRec.status = IngestionStatus.failed
      ∧ sampleFetch sampleRec.url = Except.ok (['t'], "abcde".toList)
      ∧ chunk_text ("abcde".toList) 3 1 10 ≠ [])
    ∧ (ingestView (process_url (okEncode sampleF) sampleFetch 3 1 10
          ⟨retryReset sampleDb sampleRec.url, sampleVs⟩ sampleRec.url) sampleRec.url
        = ingestView (process_url (okEncode sampleF) sampleFetch 3 1 10
            ⟨⟨[freshRecord 9 sampleRec.url], [], 50⟩, emptyStore⟩ sampleRec.url)
            sampleRec.url
      ∧ ingestView (process_url (okEncode sampleF) sampleFetch 3 1 10
          ⟨retryReset sampleDb sampleRec.url, sampleVs⟩ sampleRec.url) sampleRec.url
        = some (IngestionStatus.completed, (chunk_text ("abcde".toList) 3 1 10).length,
            (List.range' 0 (chunk_text ("abcde".toList) 3 1 10).length).zip
              (chunk_text ("abcde".toList) 3 1 10))) :=
  ⟨⟨rfl, rfl, rfl, by decide⟩,
   retry_matches_fresh sampleF sampleFetch 3 1 10 sampleDb sampleVs sampleRec
     ['t'] ("abcde".toList) 9 50 emptyStore rfl rfl rfl (by decide)⟩

theorem process_url_failure_transitions_witness :
    (sampleDb.urls = [sampleRec])
    ∧ ((sampleFetch sampleRec.url = Except.error ['E'] →
        (findUrl (process_url (fun _ => Except.error ['E']) sampleFetch 3 1 10
            ⟨sampleDb, sampleVs⟩ sampleRec.url).db sampleRec.url).map
            (fun r => (r.status, r.error_message)) =
          some (IngestionStatus.failed, some ['E']))
      ∧ (sampleFetch sampleRec.url = Except.ok (['t'], "abcde".toList) →
          chunk_text ("abcde".toList) 3 1 10 = [] →
          (findUrl (process_url (fun _ => Except.error ['E']) sampleFetch 3 1 10
              ⟨sampleDb, sampleVs⟩ sampleRec.url).db sampleRec.url).map
              (fun r => (r.status, r.error_message)) =
            some (IngestionStatus.failed, some ("No content chunks generated".toList)))
      ∧ (sampleFetch sampleRec.url = Except.ok (['t'], "abcde".toList) →
          chunk_text ("abcde".toList) 3 1 10 ≠ [] →
          encodeAll (fun _ => Except.error ['E']) (chunk_text ("abcde".toList) 3 1 10) =
            Except.error ['E'] →
          (findUrl (process_url (fun _ => Except.error ['E']) sampleFetch 3 1 10
              ⟨sampleDb, sampleVs⟩ sampleRec.url).db sampleRec.url).map
              (fun r => (r.status, r.error_message)) =
            some (IngestionStatus.failed, some ['E'])
          ∧ (chunksOf (process_url (fun _ => Except.error ['E']) sampleFetch 3 1 10
              ⟨sampleDb, sampleVs⟩ sampleRec.url).db sampleRec.id).map
              (fun c => (c.chunk_index, c.content)) =
            (List.range' 0 (chunk_text ("abcde".toList) 3 1 10).length).zip
              (chunk_text ("abcde".toList) 3 1 10))) :=
  ⟨rfl,
   process_url_failure_transitions (fun _ => Except.error ['E']) sampleFetch 3 1 10
     sampleDb sampleVs sampleRec ['t'] ("abcde".toList) ['E'] rfl⟩

theorem failed_commit_persists_witness :
    (sampleDb.urls = [sampleRec]
      ∧ sampleFetch sampleRec.url = Except.ok (['t'], "abcde".toList))
    ∧ ((chunk_text ("abcde".toList) 3 1 10 = [] →
        (findUrl (process_url (fun _ => Except.error ['E']) sampleFetch 3 1 10
            ⟨sampleDb, sampleVs⟩ sampleRec.url).db sampleRec.url).map
            (fun r => (r.status, r.title, r.content_length)) =
          some (IngestionStatus.failed, some ['t'], ("abcde".toList).length))
      ∧ (chunk_text ("abcde".toList) 3 1 10 ≠ [] →
          encodeAll (fun _ => Except.error ['E']) (chunk_text ("abcde".toList) 3 1 10) =
            Except.error ['E'] →
          (findUrl (process_url (fun _ => Except.error ['E']) sampleFetch 3 1 10
              ⟨sampleDb, sampleVs⟩ sampleRec.url).db sampleRec.url).map
              (fun r => (r.status, r.title, r.content_length)) =
            some (IngestionStatus.failed, some ['t'], ("abcde".toList).length))) :=
  ⟨⟨rfl, rfl⟩,
   failed_commit_persists_fetch_updates (fun _ => Except.error ['E']) sampleFetch 3 1 10
     sampleDb sampleVs sampleRec ['t'] ("abcde".toList) ['E'] rfl rfl⟩

/-! ### Query service (src/app.py, query_rag handler) -/

/-- Python `str.strip` whitespace (space, tab, newline, carriage return,
vertical tab, form feed). -/
def pyIsSpace (c : Char) : Bool :=
  c == ' ' || c == Char.ofNat 9 || c == Char.ofNat 10 || c == Char.ofNat 13 ||
    c == Char.ofNat 11 || c == Char.ofNat 12

/-- A `sources` entry: content truncated to 500 characters, distance, and the
chunk's sequence index. -/
structure SourceChunk where
  content : List Char
  distance : Int
  chunk_index : Nat
  deriving DecidableEq

/-- The 200-response body of `/query` (the echoed query and model name carry
no information and are omitted). -/
structure QueryResponse where
  answer : List Char
  sources : List SourceChunk
  deriving DecidableEq

/-- Outcome of the `/query` handler: 400, 500, or 200 with a body. -/
inductive QueryOutcome
  | badRequest (msg : List Char)
  | internalError
  | ok (resp : QueryResponse)
  deriving DecidableEq

/-- `"\n\n".join(...)` over the source-chunk contents. -/
def joinContext : List (List Char) → List Char
  | [] => []
  | [c] => c
  | c :: c2 :: cs => c ++ [Char.ofNat 10, Char.ofNat 10] ++ joinContext (c2 :: cs)

/-- The `/query` handler past request parsing: validate the query and `top_k`,
search the vector store, short-circuit on an empty result, otherwise join the
matching chunk records (silently dropping stale ids), truncate each content to
500 characters, and call the answer generator on the concatenated context. -/
def query_rag (encode : Encoder) (vs : VectorStore) (db_chunks : List ChunkRecord)
    (genAnswer : List Char → List Char → List Char)
    (query : List Char) (top_k : Nat) : QueryOutcome :=
  if query.all pyIsSpace then
    QueryOutcome.badRequest ("Query cannot be empty".toList)
  else if top_k < 1 ∨ 20 < top_k then
    QueryOutcome.badRequest ("top_k must be between 1 and 20".toList)
  else
    match search encode vs query top_k with
    | Except.error _ => QueryOutcome.internalError
    | Except.ok search_results =>
      if search_results = [] then
        QueryOutcome.ok ⟨"No relevant content found in the ingested documents.".toList, []⟩
      else
        let source_chunks := search_results.filterMap (fun r =>
          match db_chunks.find? (fun c => c.id == r.1) with
          | some c => some (⟨c.content.take 500, r.2, c.chunk_index⟩ : SourceChunk)
          | none => none)
        QueryOutcome.ok
          ⟨genAnswer query (joinContext (source_chunks.map (fun s => s.content))),
            source_chunks⟩

/-- Claim C8: when the vector-index search returns no results, the query
service answers with the canned no-relevant-content response and an empty
sources list; the conclusion holds for every answer generator `genAnswer`,
so the external answer-generation collaborator is never consulted. -/
theorem query_rag_no_results (encode : Encoder) (vs : VectorStore)
    (db_chunks : List ChunkRecord) (genAnswer : List Char → List Char → List Char)
    (query : List Char) (top_k : Nat)
    (hq : query.all pyIsSpace = false) (hk1 : 1 ≤ top_k) (hk2 : top_k ≤ 20)
    (hs : search encode vs query top_k = Except.ok []) :
    query_rag encode vs db_chunks genAnswer query top_k =
      QueryOutcome.ok
        ⟨"No relevant content found in the ingested documents.".toList, []⟩ := by
  have h1 : ¬ (query.all pyIsSpace = true) := by simp [hq]
  have h2 : ¬ (top_k < 1 ∨ 20 < top_k) := by omega
  rw [query_rag, if_neg h1, if_neg h2, hs]
  rfl

theorem query_rag_no_results_witness :
    ((['w', 'h', 'a', 't'].all pyIsSpace = false)
      ∧ (1 : Nat) ≤ 5 ∧ (5 : Nat) ≤ 20
      ∧ search (okEncode sampleF) emptyStore ['w', 'h', 'a', 't'] 5 = Except.ok [])
    ∧ query_rag (okEncode sampleF) emptyStore [] (fun q _ => q) ['w', 'h', 'a', 't'] 5 =
        QueryOutcome.ok
          ⟨"No relevant content found in the ingested documents.".toList, []⟩ :=
  ⟨⟨by decide, by decide, by decide, rfl⟩,
   query_rag_no_results (okEncode sampleF) emptyStore [] (fun q _ => q)
     ['w', 'h', 'a', 't'] 5 (by decide) (by decide) (by decide) rfl⟩

end WebRag
